import Mathlib

/-!
Verification of the content-fidelity checking pipeline of the meta-theory
repository (`normalizeText`, `normalizeCode`, `verifyMarkdownContent` in
`src/unnamed/part_005` and `src/scripts/verify-article-playwright.mjs`).

Strings are modelled as lists of Unicode characters (`Str`).  Every JS
string operation used by the pipeline (trim, global regex replacement,
split, substring search) is embedded as an executable Lean function on
`Str`.  `toLowerCase()` is modelled with the Unicode special-casing rule
that expands U+0130 to "i" plus a combining dot (the one length-changing
non-locale lowercase mapping) and simple folding on the script ranges the
pipeline's data uses (ASCII and Cyrillic); the regex `i` flag is modelled
as simple case folding.  Floating-point threshold comparisons are
modelled over `ℚ`, which agrees with the IEEE comparisons for all ratios
of the small integer counts the checker produces.
-/

/-! ### Generic lemmas about the embedded string primitives -/

/-- A JavaScript string, modelled as its list of characters. -/
abbrev Str : Type := List Char

/-- The character class of the JS regex `\s` (also the set stripped by
`String.prototype.trim`). -/
def jsWs (c : Char) : Bool :=
  c.toNat == 9 || c.toNat == 10 || c.toNat == 11 || c.toNat == 12 ||
  c.toNat == 13 || c.toNat == 32 || c.toNat == 160 || c.toNat == 5760 ||
  (8192 ≤ c.toNat && c.toNat ≤ 8202) || c.toNat == 8232 || c.toNat == 8233 ||
  c.toNat == 8239 || c.toNat == 8287 || c.toNat == 12288 || c.toNat == 65279

/-- Leading-whitespace strip, one half of `text.trim()`. -/
def trimLeft (s : Str) : Str := List.dropWhile jsWs s

/-- The embedding of `text.trim()`. -/
def jsTrim (s : Str) : Str :=
  List.reverse (List.dropWhile jsWs (List.reverse (trimLeft s)))

/-- Worker for `replace(/\s+/g, ' ')`: the flag records whether the previous
character belonged to a whitespace run that has already emitted its space. -/
def collapseAux : Bool → List Char → List Char
  | _, [] => []
  | inRun, c :: rest =>
    if jsWs c then
      if inRun then collapseAux true rest
      else ' ' :: collapseAux true rest
    else c :: collapseAux false rest

/-- The embedding of `replace(/\s+/g, ' ')`. -/
def collapseWs (s : Str) : Str := collapseAux false s

/-- Global replacement of every character satisfying `p` by the string
`repl`: the embedding of `replace(/[class]/g, repl)`. -/
def replaceClass (p : Char → Bool) (repl : Str) : Str → Str
  | [] => []
  | c :: rest => (if p c then repl else [c]) ++ replaceClass p repl rest

/-- One-character-at-a-time scanner for global literal-string replacement.
`matchAt` decides whether the pattern matches at the current position,
`patLen` is the pattern length and `fuel` bounds the recursion (it is
always instantiated with the length of the scanned string, which suffices
because every step consumes at least one character). -/
def replaceScan (matchAt : Str → Bool) (patLen : Nat) (repl : Str) :
    Nat → Str → Str
  | _, [] => []
  | 0, s => s
  | n + 1, c :: rest =>
    if matchAt (c :: rest) then
      repl ++ replaceScan matchAt patLen repl n (List.drop patLen (c :: rest))
    else
      c :: replaceScan matchAt patLen repl n rest

/-- The embedding of `replace(/literal/g, repl)` (case-sensitive). -/
def replaceStr (pat repl s : Str) : Str :=
  replaceScan (fun t => List.isPrefixOf pat t) (List.length pat) repl
    (List.length s) s

/-- Simple case folding: ASCII `A`–`Z` and Cyrillic `А`–`Я` map to their
lowercase forms, everything else is fixed.  This models both
`toLowerCase()` and the effect of the regex `i` flag on the characters
that actually occur in the pipeline's patterns. -/
def foldChar (c : Char) : Char :=
  if 65 ≤ c.toNat && c.toNat ≤ 90 then Char.ofNat (c.toNat + 32)
  else if 1040 ≤ c.toNat && c.toNat ≤ 1071 then Char.ofNat (c.toNat + 32)
  else c

/-- The lowercase image of one character under `toLowerCase()`: the
dotted capital I (U+0130) expands to `"i"` followed by a combining dot
above (U+0307), per Unicode SpecialCasing — the single length-changing
non-locale lowercase mapping; every other character maps to its simple
lowercase via `foldChar`. -/
def jsLowerChar (c : Char) : Str :=
  if c.toNat == 304 then ['i', '\u0307'] else [foldChar c]

/-- The embedding of `toLowerCase()`. -/
def jsToLowerStr : Str → Str
  | [] => []
  | c :: rest => jsLowerChar c ++ jsToLowerStr rest

/-- Case-insensitive prefix test (pattern first). -/
def ciLeads : Str → Str → Bool
  | [], _ => true
  | _ :: _, [] => false
  | p :: ps, c :: cs => (foldChar p == foldChar c) && ciLeads ps cs

/-- The embedding of `replace(/literal/gi, repl)` (case-insensitive). -/
def replaceStrCI (pat repl s : Str) : Str :=
  replaceScan (fun t => ciLeads pat t) (List.length pat) repl
    (List.length s) s

/-- Characters of the class `[ -‏ - ]`. -/
def isUniSpace (c : Char) : Bool :=
  (8192 ≤ c.toNat && c.toNat ≤ 8207) || (8232 ≤ c.toNat && c.toNat ≤ 8239)

/-- The non-breaking space replaced by `replace(/ /g, ' ')`. -/
def isNbsp (c : Char) : Bool := c.toNat == 160

/-- The (ASCII) class of the source's quote-normalization `replace(/['']/g, "'")`. -/
def isSQuoteClass (c : Char) : Bool := c.toNat == 39

/-- The (ASCII) class of the source's `replace(/[""]/g, '"')`. -/
def isDQuoteClass (c : Char) : Bool := c.toNat == 34

/-- The multiplication sign `×` (U+00D7). -/
def isMulSign (c : Char) : Bool := c.toNat == 215

/-- The arrow class `[→↦]` of `part_005`. -/
def isArrowChar (c : Char) : Bool := c.toNat == 8594 || c.toNat == 8614

/-- The minus sign `−` (U+2212). -/
def isMinusSign (c : Char) : Bool := c.toNat == 8722

def patTimes : Str := "\\times".data

def patTo : Str := "\\to".data

def patDollar2 : Str := "$$".data

def patDollar : Str := "$".data

def patSubseteq : Str := "\\subseteq".data

def patMathbb : Str := ['\\', 'm', 'a', 't', 'h', 'b', 'b', '\x7b', 'n', '\x7d', '_', '0']

def patIn : Str := "\\in".data

def patEmptyset : Str := "\\emptyset".data

def patCaret2 : Str := "^2".data

def patCaretN : Str := "^n".data

/-- The embedding of `normalizeText` (`src/unnamed/part_005`, lines
312–334): the replacement stages are applied in exactly the source
order. -/
def normalizeText (s : Str) : Str :=
  jsToLowerStr <|
  replaceStr patCaretN ['ⁿ'] <|
  replaceStr patCaret2 ['²'] <|
  replaceStr patEmptyset ['∅'] <|
  replaceStr patIn ['∈'] <|
  replaceStrCI patMathbb ['ℕ', '₀'] <|
  replaceStr patSubseteq ['⊆'] <|
  replaceStr patDollar [] <|
  replaceStr patDollar2 [] <|
  replaceClass isMinusSign ['-'] <|
  replaceStr patTo ['-', '>'] <|
  replaceClass isArrowChar ['-', '>'] <|
  replaceStr patTimes ['x'] <|
  replaceClass isMulSign ['x'] <|
  replaceClass isDQuoteClass ['"'] <|
  replaceClass isSQuoteClass ['\''] <|
  replaceClass isNbsp [' '] <|
  replaceClass isUniSpace [' '] <|
  collapseWs <|
  jsTrim s

/-- The embedding of `normalizeCode` (`src/unnamed/part_005`, lines
339–350). -/
def normalizeCode (s : Str) : Str :=
  jsToLowerStr <|
  replaceStr patDollar [] <|
  replaceStr patDollar2 [] <|
  replaceStr patTimes ['x'] <|
  replaceClass isMulSign ['x'] <|
  replaceClass isNbsp [' '] <|
  replaceClass isUniSpace [' '] <|
  collapseWs <|
  jsTrim s

/-- The embedding of `haystack.includes(needle)`: `needle` occurs as a
contiguous substring of `hay`. -/
def includesStr (hay needle : Str) : Bool :=
  List.isPrefixOf needle hay ||
    match hay with
    | [] => false
    | _ :: t => includesStr t needle

/-- The embedding of `normalized.split(' ').filter(w => w.length > 2)`:
the qualifying words of a normalized paragraph or list item. -/
def qualifyingWords (normalized : Str) : List Str :=
  List.filter (fun w => 2 < List.length w) (List.splitOn ' ' normalized)

/-- The words of `words` that the normalized candidate document contains
as substrings. -/
def matchingWords (nm : Str) (words : List Str) : List Str :=
  List.filter (fun w => includesStr nm w) words

/-- The embedding of
`words.length > 0 ? matchingWords.length / words.length : 0`. -/
def wordMatchRate (nm : Str) (words : List Str) : ℚ :=
  if 0 < List.length words then
    (List.length (matchingWords nm words) : ℚ) / (List.length words : ℚ)
  else 0

/-- The paragraph substring fallback:
`normalized.length > 20 && markdown.includes(normalized.substring(0, min(50, normalized.length)))`. -/
def paragraphFallback (nm normalized : Str) : Bool :=
  decide (20 < List.length normalized) &&
    includesStr nm (List.take (min 50 (List.length normalized)) normalized)

/-- The list-item substring fallback (thresholds 15 and 40). -/
def listItemFallback (nm normalized : Str) : Bool :=
  decide (15 < List.length normalized) &&
    includesStr nm (List.take (min 40 (List.length normalized)) normalized)

/-- Presence decision for one sampled paragraph against the normalized
candidate document `nm`. -/
def paragraphPresent (nm p : Str) : Bool :=
  decide ((0.6 : ℚ) ≤ wordMatchRate nm (qualifyingWords (normalizeText p))) ||
    paragraphFallback nm (normalizeText p)

/-- Presence decision for one sampled list item. -/
def listItemPresent (nm item : Str) : Bool :=
  decide ((0.6 : ℚ) ≤ wordMatchRate nm (qualifyingWords (normalizeText item))) ||
    listItemFallback nm (normalizeText item)

/-- A heading extracted from the page (`{level, text}`). -/
structure Heading where
  level : Str
  text : Str

/-- Presence decision for one heading: exact containment of the
normalized heading text. -/
def headingPresent (nm : Str) (h : Heading) : Bool :=
  includesStr nm (normalizeText h.text)

/-- True when the line consists solely of punctuation or bracket
characters: the embedding of `/^[{}\[\](),;]+$/.test(l)`. -/
def isPunctOnly (l : Str) : Bool :=
  !List.isEmpty l &&
    List.all l (fun c =>
      c == '\x7b' || c == '\x7d' || c == '[' || c == ']' ||
      c == '(' || c == ')' || c == ',' || c == ';')

/-- The significant lines of a code block:
`code.split('\n').map(l => l.trim()).filter(l => l.length > 3 && !punctOnly)`. -/
def significantLines (code : Str) : List Str :=
  List.filter (fun l => decide (3 < List.length l) && !isPunctOnly l)
    (List.map jsTrim (List.splitOn '\n' code))

/-- The significant lines whose `normalizeCode` form the normalized
candidate (for code) contains as a substring. -/
def matchingLines (mdCode code : Str) : List Str :=
  List.filter (fun l => includesStr mdCode (normalizeCode l))
    (significantLines code)

/-- The embedding of
`lines.length > 0 ? matchingLines.length / lines.length : 1`. -/
def codeLineMatchRate (mdCode code : Str) : ℚ :=
  if 0 < List.length (significantLines code) then
    (List.length (matchingLines mdCode code) : ℚ) /
      (List.length (significantLines code) : ℚ)
  else 1

/-- Presence decision for one code block against the
`normalizeCode`-normalized candidate document `mdCode`. -/
def codeBlockPresent (mdCode code : Str) : Bool :=
  decide ((0.6 : ℚ) ≤ codeLineMatchRate mdCode code) ||
    includesStr mdCode (normalizeCode code)

/-- The sampled paragraphs:
`[...paragraphs.slice(0, 5), ...paragraphs.slice(-5)]`. -/
def paragraphsToCheck (ps : List Str) : List Str :=
  List.take 5 ps ++ List.drop (List.length ps - 5) ps

/-- The embedding of `item.substring(0, 100) + '...'` used when recording
a missing item. -/
def truncateItem (s : Str) : Str := List.take 100 s ++ "...".data

/-- ASCII digits, the regex class `\d`. -/
def isDigitChar (c : Char) : Bool := 48 ≤ c.toNat && c.toNat ≤ 57

/-- Tail of the figure-image pattern after the language keyword:
`\s*\d+\](images/figure-\d+\.(png|jpg)\)` (case-insensitively).  Returns
the suffix after the match, or `none`. -/
def figTail (u : Str) : Option Str :=
  let u1 := List.dropWhile jsWs u
  let ds := List.takeWhile isDigitChar u1
  let u2 := List.dropWhile isDigitChar u1
  if List.isEmpty ds then none
  else if ciLeads ("](images/figure-".data) u2 then
    let u3 := List.drop 16 u2
    let ds2 := List.takeWhile isDigitChar u3
    let u4 := List.dropWhile isDigitChar u3
    if List.isEmpty ds2 then none
    else
      match u4 with
      | '.' :: u5 =>
        if ciLeads ("png".data) u5 || ciLeads ("jpg".data) u5 then
          match List.drop 3 u5 with
          | ')' :: u6 => some u6
          | _ => none
        else none
      | _ => none
  else none

/-- Attempts one keyword alternative of the figure pattern. -/
def tryFigKw (kw t : Str) : Option Str :=
  if ciLeads kw t then figTail (List.drop (List.length kw) t) else none

/-- Matches the figure-image regex
`!\[(?:Figure|Рис\.?|Рисунок)\s*\d+\]\(images\/figure-\d+\.(png|jpg)\)`
(`gi` flags) at the start of `s`; alternatives are tried in the regex's
backtracking order.  Returns the suffix after the match. -/
def matchFigureAt (s : Str) : Option Str :=
  match s with
  | '!' :: '[' :: t =>
    match tryFigKw ("figure".data) t with
    | some r => some r
    | none =>
      match tryFigKw ("рис.".data) t with
      | some r => some r
      | none =>
        match tryFigKw ("рис".data) t with
        | some r => some r
        | none => tryFigKw ("рисунок".data) t
  | _ => none

/-- Left-to-right non-overlapping scan counting the matches of the figure
pattern, as `markdownText.match(figurePattern).length` does. -/
def countFigAux : Nat → Str → Nat
  | 0, _ => 0
  | _ + 1, [] => 0
  | n + 1, c :: rest =>
    match matchFigureAt (c :: rest) with
    | some rest1 => 1 + countFigAux n rest1
    | none => countFigAux n rest

/-- The number of figure-image references recognized in the raw markdown
text. -/
def countFigureRefs (s : Str) : Nat := countFigAux (List.length s) s

/-- Line terminators, which the regex `.` does not match. -/
def isLineTerm (c : Char) : Bool :=
  c.toNat == 10 || c.toNat == 13 || c.toNat == 8232 || c.toNat == 8233

/-- Scans for a closing parenthesis before any line terminator (the
`.*?\)` tail of the external-image pattern). -/
def scanUrlClose : Str → Bool
  | [] => false
  | c :: r => if c == ')' then true else if isLineTerm c then false else scanUrlClose r

/-- Scans the `.*?\]\(https?:\/\/` middle of the external-image pattern,
retrying at later positions as regex backtracking would. -/
def scanLinkBody : Str → Bool
  | [] => false
  | c :: r =>
    if List.isPrefixOf ("](https://".data) (c :: r) &&
        scanUrlClose (List.drop 10 (c :: r)) then true
    else if List.isPrefixOf ("](http://".data) (c :: r) &&
        scanUrlClose (List.drop 9 (c :: r)) then true
    else if isLineTerm c then false
    else scanLinkBody r

/-- Whether the markdown contains a match of
`!\[.*?\]\(https?:\/\/.*?\)` (the external-image reference check). -/
def hasExternalImageRef : Str → Bool
  | [] => false
  | c :: r =>
    (List.isPrefixOf ("![".data) (c :: r) && scanLinkBody (List.drop 2 (c :: r))) ||
      hasExternalImageRef r

/-- The per-article configuration consulted by the figure check.  A JS
`article.expectedFigures` that is absent or `0` is falsy; it is modelled
as `0`. -/
structure Article where
  hasLocalImages : Bool
  expectedFigures : Nat

/-- The extracted web-page content consumed by `verifyMarkdownContent`. -/
structure WebContent where
  title : Str
  headings : List Heading
  paragraphs : List Str
  codeBlocks : List Str
  listItems : List Str

/-- The `missing` record accumulated by `verifyMarkdownContent`. -/
structure MissingContent where
  title : Bool
  headings : List Str
  paragraphs : List Str
  codeBlocks : List Str
  formulas : List Str
  listItems : List Str
  images : Nat

/-- The report returned by `verifyMarkdownContent`. -/
structure VerificationReport where
  totalChecks : Nat
  passedChecks : Nat
  passRate : ℚ
  hasMissingContent : Bool
  missing : MissingContent
  success : Bool

/-- Outcome list of the title check (empty when there is no title). -/
def titleChecks (nm title : Str) : List Bool :=
  if List.isEmpty title then []
  else [includesStr nm (normalizeText title)]

/-- Outcome list of the heading checks. -/
def headingChecks (nm : Str) (hs : List Heading) : List Bool :=
  List.map (fun h => headingPresent nm h) hs

/-- Outcome list of the sampled paragraph checks. -/
def paragraphChecks (nm : Str) (ps : List Str) : List Bool :=
  List.map (fun p => paragraphPresent nm p) (paragraphsToCheck ps)

/-- Outcome list of the code-block checks. -/
def codeChecks (mdCode : Str) (cs : List Str) : List Bool :=
  List.map (fun c => codeBlockPresent mdCode c) cs

/-- Outcome list of the sampled list-item checks (first 10). -/
def listChecks (nm : Str) (items : List Str) : List Bool :=
  List.map (fun i => listItemPresent nm i) (List.take 10 items)

/-- The number of passed checks in an outcome list. -/
def countTrue (l : List Bool) : Nat := List.count true l

/-- The image-check branch: returns the increments of `totalChecks` and
`passedChecks` and the `missing.images` count.  The figure-count check
runs only when `article.hasLocalImages && article.expectedFigures`; for
articles without local images the external-image check runs instead. -/
def figureCheck (article : Article) (markdownText : Str) : Nat × Nat × Nat :=
  if article.hasLocalImages && decide (article.expectedFigures ≠ 0) then
    let found := countFigureRefs markdownText
    if article.expectedFigures ≤ found then (1, 1, 0)
    else (1, 0, article.expectedFigures - found)
  else if !article.hasLocalImages then
    if hasExternalImageRef markdownText then (1, 1, 0) else (1, 0, 0)
  else (0, 0, 0)

/-- The `totalChecks` accumulator of `verifyMarkdownContent`. -/
def verifyTotalChecks (article : Article) (w : WebContent) (m : Str) : Nat :=
  List.length (titleChecks (normalizeText m) w.title) +
  List.length (headingChecks (normalizeText m) w.headings) +
  List.length (paragraphChecks (normalizeText m) w.paragraphs) +
  List.length (codeChecks (normalizeCode m) w.codeBlocks) +
  List.length (listChecks (normalizeText m) w.listItems) + (figureCheck article m).1

/-- The `passedChecks` accumulator of `verifyMarkdownContent`. -/
def verifyPassedChecks (article : Article) (w : WebContent) (m : Str) : Nat :=
  countTrue (titleChecks (normalizeText m) w.title) +
  countTrue (headingChecks (normalizeText m) w.headings) +
  countTrue (paragraphChecks (normalizeText m) w.paragraphs) +
  countTrue (codeChecks (normalizeCode m) w.codeBlocks) +
  countTrue (listChecks (normalizeText m) w.listItems) + (figureCheck article m).2.1

/-- The `missing` record built by `verifyMarkdownContent`. -/
def verifyMissing (article : Article) (w : WebContent) (m : Str) : MissingContent :=
  { title := !List.isEmpty w.title &&
      !includesStr (normalizeText m) (normalizeText w.title)
    headings := List.map Heading.text
      (List.filter (fun h => !headingPresent (normalizeText m) h) w.headings)
    paragraphs := List.map truncateItem
      (List.filter (fun p => !paragraphPresent (normalizeText m) p)
        (paragraphsToCheck w.paragraphs))
    codeBlocks := List.map truncateItem
      (List.filter (fun c => !codeBlockPresent (normalizeCode m) c) w.codeBlocks)
    formulas := []
    listItems := List.map truncateItem
      (List.filter (fun i => !listItemPresent (normalizeText m) i)
        (List.take 10 w.listItems))
    images := (figureCheck article m).2.2 }

/-- The `passRate` of the run:
`totalChecks > 0 ? passedChecks / totalChecks : 0`. -/
def verifyPassRate (article : Article) (w : WebContent) (m : Str) : ℚ :=
  if 0 < verifyTotalChecks article w m then
    (verifyPassedChecks article w m : ℚ) / (verifyTotalChecks article w m : ℚ)
  else 0

/-- The `hasMissingContent` flag:
`missing.title || missing.images > 0 || some array nonempty`. -/
def verifyHasMissingContent (article : Article) (w : WebContent) (m : Str) : Bool :=
  (verifyMissing article w m).title ||
  decide (0 < (verifyMissing article w m).images) ||
  !List.isEmpty (verifyMissing article w m).headings ||
  !List.isEmpty (verifyMissing article w m).paragraphs ||
  !List.isEmpty (verifyMissing article w m).codeBlocks ||
  !List.isEmpty (verifyMissing article w m).formulas ||
  !List.isEmpty (verifyMissing article w m).listItems

/-- The embedding of `verifyMarkdownContent` (`src/unnamed/part_005`,
lines 475–633): the imperative accumulation of `totalChecks`,
`passedChecks` and `missing` is rendered as per-category sums, and
`success = !hasMissingContent || passRate >= 0.85`. -/
def verifyMarkdownContent (article : Article) (webContent : WebContent)
    (markdownText : Str) : VerificationReport :=
  { totalChecks := verifyTotalChecks article webContent markdownText
    passedChecks := verifyPassedChecks article webContent markdownText
    passRate := verifyPassRate article webContent markdownText
    hasMissingContent := verifyHasMissingContent article webContent markdownText
    missing := verifyMissing article webContent markdownText
    success := !verifyHasMissingContent article webContent markdownText ||
      decide ((0.85 : ℚ) ≤ verifyPassRate article webContent markdownText) }

/-- The missing record registers at least one missing item. -/
def missingRecorded (m : MissingContent) : Prop :=
  m.title = true ∨ 0 < m.images ∨ m.headings ≠ [] ∨ m.paragraphs ≠ [] ∨
    m.codeBlocks ≠ [] ∨ m.formulas ≠ [] ∨ m.listItems ≠ []

instance (m : MissingContent) : Decidable (missingRecorded m) := by
  unfold missingRecorded; infer_instance

/-- Characters on which every non-whitespace stage of `normalizeText` is
inert: ASCII, not a backslash, dollar or caret, and not an uppercase
letter. -/
def plainChar (c : Char) : Bool :=
  c.toNat < 128 && !(c.toNat == 92) && !(c.toNat == 36) && !(c.toNat == 94) &&
    !(65 ≤ c.toNat && c.toNat ≤ 90)

def exParagraph : Str := "alpha bravo carol delta eagle fabio grape hotel igloo julia".data

def exCand1 : Str := "alpha bravo carol delta eagle fabio".data

def exCand2 : Str := "alpha bravo carol delta eagle".data

def exShortItem : Str := "alpha bravo".data

def exShortCand : Str := "alpha zz bravo".data

def exTrivCode : Str := "\x7b\x7d\n);(\nab".data

def exZwsp : Str := ['a', '​', '​', 'b']

def exArrowStr : Str := ['→']

def exMd12 : Str := ("![Figure 1](images/figure-1.png)\n![Figure 2](images/figure-2.png)\n![Figure 3](images/figure-3.png)\n![Figure 4](images/figure-4.png)\n![Figure 5](images/figure-5.png)\n![Figure 6](images/figure-6.png)\n![Figure 7](images/figure-7.png)\n![Figure 8](images/figure-8.png)\n![Figure 9](images/figure-9.png)\n![Figure 10](images/figure-10.png)\n![Figure 11](images/figure-11.jpg)\n![Рисунок 12](images/figure-12.png)").data

def exArticle13 : Article := ⟨true, 13⟩

def exArticleNoLocal : Article := ⟨false, 13⟩

def exWebEmpty : WebContent := ⟨[], [], [], [], []⟩

def exPlain : Str := "hello  world".data

def exNoArrow : Str := "ab".data

/-- Length contribution of one input character through the pipeline: 2
for a character some stage can expand to two characters (the arrow class
and U+0130 under `toLowerCase`), 1 otherwise. -/
def charWeight (c : Char) : Nat :=
  if isArrowChar c || c.toNat == 304 then 2 else 1

/-- Total character weight of a string. -/
def strWeight (s : Str) : Nat := List.sum (List.map charWeight s)

def exDottedI : Str := ['\u0130']

set_option maxRecDepth 40000

theorem charToNat_inj {a b : Char} (h : a.toNat = b.toNat) : a = b := by
  have h2 := congrArg Char.ofNat h
  rwa [Char.ofNat_toNat, Char.ofNat_toNat] at h2

theorem toNat_ofNat_valid {n : Nat} (h : n.isValidChar) :
    (Char.ofNat n).toNat = n := by
  rw [Char.ofNat, dif_pos h]
  rfl

theorem foldChar_toNat (c : Char) :
    (foldChar c).toNat = c.toNat ∨ (foldChar c).toNat = c.toNat + 32 := by
  unfold foldChar
  by_cases h1 : (65 ≤ c.toNat && c.toNat ≤ 90) = true
  · simp only [h1, if_true]
    right
    apply toNat_ofNat_valid
    simp only [Bool.and_eq_true, decide_eq_true_eq] at h1
    constructor
    omega
  · by_cases h2 : (1040 ≤ c.toNat && c.toNat ≤ 1071) = true
    · simp only [h1, h2, if_true, if_false]
      right
      apply toNat_ofNat_valid
      simp only [Bool.and_eq_true, decide_eq_true_eq] at h2
      constructor
      omega
    · simp [h1, h2]

theorem foldChar_fixed {c : Char} (h1 : ¬ (65 ≤ c.toNat ∧ c.toNat ≤ 90))
    (h2 : ¬ (1040 ≤ c.toNat ∧ c.toNat ≤ 1071)) : foldChar c = c := by
  unfold foldChar
  have e1 : (65 ≤ c.toNat && c.toNat ≤ 90) = false := by
    simp only [Bool.and_eq_false_iff, decide_eq_false_iff_not]
    omega
  have e2 : (1040 ≤ c.toNat && c.toNat ≤ 1071) = false := by
    simp only [Bool.and_eq_false_iff, decide_eq_false_iff_not]
    omega
  simp [e1, e2]

theorem foldChar_backslash {c : Char} (h : foldChar c = '\\') : c = '\\' := by
  by_cases h1 : 65 ≤ c.toNat ∧ c.toNat ≤ 90
  · exfalso
    have hv : (foldChar c).toNat = c.toNat + 32 ∨ (foldChar c).toNat = c.toNat := by
      rcases foldChar_toNat c with h' | h'
      · exact Or.inr h'
      · exact Or.inl h'
    have hb : (foldChar c).toNat = 92 := by rw [h]; rfl
    unfold foldChar at hb
    have e1 : (65 ≤ c.toNat && c.toNat ≤ 90) = true := by
      simp only [Bool.and_eq_true, decide_eq_true_eq]
      exact h1
    rw [if_pos e1] at hb
    rw [toNat_ofNat_valid (by constructor; omega)] at hb
    omega
  · by_cases h2 : 1040 ≤ c.toNat ∧ c.toNat ≤ 1071
    · exfalso
      have hb : (foldChar c).toNat = 92 := by rw [h]; rfl
      unfold foldChar at hb
      have e1 : (65 ≤ c.toNat && c.toNat ≤ 90) = false := by
        simp only [Bool.and_eq_false_iff, decide_eq_false_iff_not]
        omega
      have e2 : (1040 ≤ c.toNat && c.toNat ≤ 1071) = true := by
        simp only [Bool.and_eq_true, decide_eq_true_eq]
        exact h2
      rw [if_neg (by simp [e1]), if_pos e2] at hb
      rw [toNat_ofNat_valid (by constructor; omega)] at hb
      omega
    · rwa [foldChar_fixed h1 h2] at h

theorem isPrefixOf_true_iff {l₁ l₂ : Str} :
    List.isPrefixOf l₁ l₂ = true ↔ l₁ <+: l₂ := by
  induction l₁ generalizing l₂ with
  | nil => simp
  | cons a t ih =>
    cases l₂ with
    | nil => simp
    | cons b t₂ =>
      rw [List.isPrefixOf_cons₂, List.cons_prefix_cons]
      simp [ih]

theorem includesStr_iff {hay needle : Str} :
    includesStr hay needle = true ↔ needle <:+: hay := by
  induction hay with
  | nil =>
    rw [includesStr]
    simp [isPrefixOf_true_iff]
  | cons c t ih =>
    rw [includesStr, List.infix_cons_iff]
    simp [isPrefixOf_true_iff, ih]

theorem ciLeads_length {pat t : Str} (h : ciLeads pat t = true) :
    List.length pat ≤ List.length t := by
  induction pat generalizing t with
  | nil => simp
  | cons p ps ih =>
    cases t with
    | nil => simp [ciLeads] at h
    | cons c cs =>
      rw [ciLeads, Bool.and_eq_true] at h
      have := ih h.2
      simp only [List.length_cons]
      omega

theorem isPrefixOf_length {pat t : Str} (h : List.isPrefixOf pat t = true) :
    List.length pat ≤ List.length t :=
  (isPrefixOf_true_iff.mp h).length_le

theorem replaceScan_length_le (matchAt : Str → Bool) (patLen : Nat) (repl : Str)
    (hrepl : List.length repl ≤ patLen)
    (hmatch : ∀ t, matchAt t = true → patLen ≤ List.length t) :
    ∀ (n : Nat) (s : Str),
      List.length (replaceScan matchAt patLen repl n s) ≤ List.length s := by
  intro n
  induction n with
  | zero =>
    intro s
    cases s <;> simp [replaceScan]
  | succ n ih =>
    intro s
    cases s with
    | nil => simp [replaceScan]
    | cons c rest =>
      rw [replaceScan]
      by_cases h : matchAt (c :: rest) = true
      · have hlen := hmatch _ h
        rw [if_pos h]
        have hrec := ih (List.drop patLen (c :: rest))
        rw [List.length_append, List.length_drop] at *
        simp only [List.length_cons] at *
        omega
      · rw [if_neg h]
        have hrec := ih rest
        simp only [List.length_cons]
        omega

theorem replaceScan_id (matchAt : Str → Bool) (patLen : Nat) (repl : Str)
    (P : Char → Prop) (hm : ∀ c t, matchAt (c :: t) = true → P c) :
    ∀ (n : Nat) (s : Str), (∀ c ∈ s, ¬ P c) →
      replaceScan matchAt patLen repl n s = s := by
  intro n
  induction n with
  | zero =>
    intro s _
    cases s <;> simp [replaceScan]
  | succ n ih =>
    intro s hs
    cases s with
    | nil => simp [replaceScan]
    | cons c rest =>
      rw [replaceScan]
      have hc : matchAt (c :: rest) ≠ true := by
        intro h
        exact hs c (List.mem_cons_self c rest) (hm c rest h)
      rw [if_neg hc, ih rest (fun d hd => hs d (List.mem_cons_of_mem c hd))]

theorem replaceScan_mem (matchAt : Str → Bool) (patLen : Nat) (repl : Str) :
    ∀ (n : Nat) (s : Str) (a : Char),
      a ∈ replaceScan matchAt patLen repl n s → a ∈ repl ∨ a ∈ s := by
  intro n
  induction n with
  | zero =>
    intro s a ha
    cases s with
    | nil => simp [replaceScan] at ha
    | cons c rest => exact Or.inr ha
  | succ n ih =>
    intro s a ha
    cases s with
    | nil => simp [replaceScan] at ha
    | cons c rest =>
      rw [replaceScan] at ha
      by_cases h : matchAt (c :: rest) = true
      · rw [if_pos h, List.mem_append] at ha
        rcases ha with ha | ha
        · exact Or.inl ha
        · rcases ih _ a ha with h' | h'
          · exact Or.inl h'
          · exact Or.inr (List.drop_subset patLen (c :: rest) h')
      · rw [if_neg h, List.mem_cons] at ha
        rcases ha with rfl | ha
        · exact Or.inr (List.mem_cons_self a rest)
        · rcases ih rest a ha with h' | h'
          · exact Or.inl h'
          · exact Or.inr (List.mem_cons_of_mem c h')

theorem replaceClass_length_single (p : Char → Bool) (q : Char) :
    ∀ s : Str, List.length (replaceClass p [q] s) = List.length s := by
  intro s
  induction s with
  | nil => simp [replaceClass]
  | cons c rest ih =>
    rw [replaceClass]
    by_cases h : p c = true <;> simp [h, ih]

theorem replaceClass_length_le_double (p : Char → Bool) (r : Str)
    (hr : List.length r ≤ 2) :
    ∀ s : Str, List.length (replaceClass p r s) ≤ 2 * List.length s := by
  intro s
  induction s with
  | nil => simp [replaceClass]
  | cons c rest ih =>
    rw [replaceClass, List.length_append, List.length_cons]
    have hb : List.length (if p c = true then r else [c]) ≤ 2 := by
      by_cases h : p c = true
      · rw [if_pos h]
        exact hr
      · rw [if_neg h]
        simp
    omega

theorem replaceClass_id (p : Char → Bool) (r : Str) :
    ∀ s : Str, (∀ c ∈ s, p c = false) → replaceClass p r s = s := by
  intro s
  induction s with
  | nil => intro _; rfl
  | cons c rest ih =>
    intro hs
    rw [replaceClass, hs c (List.mem_cons_self c rest)]
    simp [ih (fun d hd => hs d (List.mem_cons_of_mem c hd))]

theorem replaceClass_self (p : Char → Bool) (q : Char)
    (hq : ∀ c, p c = true → c = q) :
    ∀ s : Str, replaceClass p [q] s = s := by
  intro s
  induction s with
  | nil => rfl
  | cons c rest ih =>
    rw [replaceClass]
    by_cases h : p c = true
    · rw [if_pos h, ih, hq c h]
      rfl
    · rw [if_neg h, ih]
      rfl

theorem replaceClass_mem (p : Char → Bool) (r : Str) :
    ∀ (s : Str) (a : Char), a ∈ replaceClass p r s → a ∈ r ∨ a ∈ s := by
  intro s
  induction s with
  | nil => intro a ha; simp [replaceClass] at ha
  | cons c rest ih =>
    intro a ha
    rw [replaceClass, List.mem_append] at ha
    rcases ha with ha | ha
    · by_cases h : p c = true
      · rw [if_pos h] at ha
        exact Or.inl ha
      · rw [if_neg h, List.mem_singleton] at ha
        exact Or.inr (ha ▸ List.mem_cons_self c rest)
    · rcases ih a ha with h' | h'
      · exact Or.inl h'
      · exact Or.inr (List.mem_cons_of_mem c h')

theorem jsToLowerStr_id (s : Str) (h : ∀ c ∈ s, foldChar c = c)
    (h304 : ∀ c ∈ s, c.toNat ≠ 304) : jsToLowerStr s = s := by
  induction s with
  | nil => rfl
  | cons c rest ih =>
    rw [jsToLowerStr]
    have hc : jsLowerChar c = [c] := by
      unfold jsLowerChar
      rw [if_neg (by simpa using h304 c (List.mem_cons_self c rest)),
        h c (List.mem_cons_self c rest)]
    rw [hc, ih (fun d hd => h d (List.mem_cons_of_mem c hd))
      (fun d hd => h304 d (List.mem_cons_of_mem c hd))]
    rfl

theorem collapseAux_length_le :
    ∀ (l : List Char) (b : Bool), List.length (collapseAux b l) ≤ List.length l := by
  intro l
  induction l with
  | nil => intro b; simp [collapseAux]
  | cons c rest ih =>
    intro b
    rw [collapseAux]
    by_cases h : jsWs c = true
    · rw [if_pos h]
      cases b with
      | true =>
        rw [if_pos rfl]
        have := ih true
        simp only [List.length_cons]
        omega
      | false =>
        simp only [Bool.false_eq_true, if_false, List.length_cons]
        have := ih true
        omega
    · rw [if_neg h]
      simp only [List.length_cons]
      have := ih false
      omega

theorem collapseAux_mem :
    ∀ (l : List Char) (b : Bool) (a : Char),
      a ∈ collapseAux b l → a = ' ' ∨ a ∈ l := by
  intro l
  induction l with
  | nil => intro b a ha; simp [collapseAux] at ha
  | cons c rest ih =>
    intro b a ha
    rw [collapseAux] at ha
    by_cases h : jsWs c = true
    · rw [if_pos h] at ha
      cases b with
      | true =>
        rw [if_pos rfl] at ha
        rcases ih true a ha with h' | h'
        · exact Or.inl h'
        · exact Or.inr (List.mem_cons_of_mem c h')
      | false =>
        simp only [Bool.false_eq_true, if_false, List.mem_cons] at ha
        rcases ha with rfl | ha
        · exact Or.inl rfl
        · rcases ih true a ha with h' | h'
          · exact Or.inl h'
          · exact Or.inr (List.mem_cons_of_mem c h')
    · rw [if_neg h, List.mem_cons] at ha
      rcases ha with rfl | ha
      · exact Or.inr (List.mem_cons_self a rest)
      · rcases ih false a ha with h' | h'
        · exact Or.inl h'
        · exact Or.inr (List.mem_cons_of_mem c h')

theorem collapseAux_true_eq :
    ∀ l : Str, collapseAux true l = collapseAux false (List.dropWhile jsWs l) := by
  intro l
  induction l with
  | nil => rfl
  | cons c rest ih =>
    by_cases h : jsWs c = true
    · rw [collapseAux, if_pos h, if_pos rfl, List.dropWhile_cons, if_pos h, ih]
    · rw [collapseAux, if_neg h, List.dropWhile_cons, if_neg h, collapseAux, if_neg h]

theorem collapseWs_cons_of_ws {c : Char} {rest : Str} (h : jsWs c = true) :
    collapseWs (c :: rest) = ' ' :: collapseWs (List.dropWhile jsWs rest) := by
  rw [collapseWs, collapseAux, if_pos h, collapseAux_true_eq]
  rfl

theorem collapseWs_cons_of_not_ws {c : Char} {rest : Str} (h : ¬ jsWs c = true) :
    collapseWs (c :: rest) = c :: collapseWs rest := by
  rw [collapseWs, collapseAux, if_neg h]
  rfl

theorem dropWhile_collapseWs (l : Str)
    (h : List.dropWhile jsWs l = l) :
    List.dropWhile jsWs (collapseWs l) = collapseWs l := by
  cases l with
  | nil => rfl
  | cons c rest =>
    have hc : jsWs c = false := by
      by_contra hcc
      rw [List.dropWhile_cons, if_pos (by revert hcc; cases jsWs c <;> simp)] at h
      have := congrArg List.length h
      have hle := (List.dropWhile_sublist (l := rest) jsWs).length_le
      simp only [List.length_cons] at this
      omega
    rw [collapseWs_cons_of_not_ws (by simp [hc]), List.dropWhile_cons, if_neg (by simp [hc])]

theorem collapseWs_idem (l : Str) : collapseWs (collapseWs l) = collapseWs l := by
  generalize hn : List.length l = n
  induction n using Nat.strong_induction_on generalizing l with
  | _ n ih =>
    cases l with
    | nil => rfl
    | cons c rest =>
      by_cases h : jsWs c = true
      · rw [collapseWs_cons_of_ws h]
        rw [collapseWs_cons_of_ws (by decide)]
        rw [dropWhile_collapseWs _ (List.dropWhile_idempotent jsWs rest)]
        have hlt : List.length (List.dropWhile jsWs rest) < n := by
          have := (List.dropWhile_sublist (l := rest) jsWs).length_le
          simp only [← hn, List.length_cons]
          omega
        rw [ih _ hlt _ rfl]
      · rw [collapseWs_cons_of_not_ws h, collapseWs_cons_of_not_ws h]
        have hlt : List.length rest < n := by
          simp only [← hn, List.length_cons]
          omega
        rw [ih _ hlt _ rfl]

theorem collapseAux_ne_nil :
    ∀ (l : Str) (b : Bool), (∃ c, c ∈ l ∧ jsWs c = false) → collapseAux b l ≠ [] := by
  intro l
  induction l with
  | nil =>
    intro b hex
    rcases hex with ⟨c, hc, _⟩
    cases hc
  | cons c rest ih =>
    intro b hex
    rcases hex with ⟨d, hd, hdw⟩
    rw [collapseAux]
    by_cases h : jsWs c = true
    · have hdr : d ∈ rest := by
        rcases List.mem_cons.mp hd with rfl | h'
        · rw [hdw] at h
          cases h
        · exact h'
      rw [if_pos h]
      cases b with
      | true => exact ih true ⟨d, hdr, hdw⟩
      | false =>
        simp only [Bool.false_eq_true, if_false]
        exact List.cons_ne_nil _ _
    · rw [if_neg h]
      exact List.cons_ne_nil _ _

theorem collapseAux_last :
    ∀ (l : Str) (b : Bool),
      (∀ a, l.getLast? = some a → jsWs a = false) →
      ∀ a, (collapseAux b l).getLast? = some a → jsWs a = false := by
  intro l
  induction l with
  | nil =>
    intro b _ a ha
    simp [collapseAux] at ha
  | cons c rest ih =>
    intro b hlast a ha
    cases rest with
    | nil =>
      have hc : jsWs c = false := hlast c rfl
      rw [collapseAux, if_neg (by simp [hc])] at ha
      have : a = c := by
        simp [collapseAux] at ha
        exact ha.symm
      rw [this]
      exact hc
    | cons r rs =>
      have hlast' : ∀ a, (r :: rs).getLast? = some a → jsWs a = false := by
        intro a' ha'
        exact hlast a' (by rw [List.getLast?_cons_cons]; exact ha')
      have hex : ∃ d, d ∈ r :: rs ∧ jsWs d = false := by
        have hne : (r :: rs) ≠ [] := List.cons_ne_nil r rs
        refine ⟨(r :: rs).getLast hne, List.mem_of_getLast?_eq_some ?_, ?_⟩
        · exact List.getLast?_eq_getLast _ hne
        · exact hlast' _ (List.getLast?_eq_getLast _ hne)
      rw [collapseAux] at ha
      by_cases h : jsWs c = true
      · rw [if_pos h] at ha
        cases b with
        | true => exact ih true hlast' a ha
        | false =>
          simp only [Bool.false_eq_true, if_false] at ha
          have hne2 := collapseAux_ne_nil (r :: rs) true hex
          rcases hX : collapseAux true (r :: rs) with _ | ⟨x, xs⟩
          · exact absurd hX hne2
          · rw [hX, List.getLast?_cons_cons] at ha
            exact ih true hlast' a (by rw [hX]; exact ha)
      · rw [if_neg h] at ha
        have hne2 := collapseAux_ne_nil (r :: rs) false hex
        rcases hX : collapseAux false (r :: rs) with _ | ⟨x, xs⟩
        · exact absurd hX hne2
        · rw [hX, List.getLast?_cons_cons] at ha
          exact ih false hlast' a (by rw [hX]; exact ha)

theorem dropWhile_eq_self_of_head (p : Char → Bool) (l : Str)
    (h : ∀ a, l.head? = some a → p a = false) : List.dropWhile p l = l := by
  cases l with
  | nil => rfl
  | cons c rest =>
    rw [List.dropWhile_cons, if_neg (by simp [h c rfl])]

theorem head_dropWhile_false (p : Char → Bool) (l : Str) :
    ∀ a, (List.dropWhile p l).head? = some a → p a = false := by
  induction l with
  | nil =>
    intro a ha
    simp at ha
  | cons c rest ih =>
    intro a ha
    rw [List.dropWhile_cons] at ha
    by_cases h : p c = true
    · rw [if_pos h] at ha
      exact ih a ha
    · rw [if_neg h] at ha
      simp only [List.head?_cons, Option.some.injEq] at ha
      rw [← ha]
      simpa using h

theorem getLast_suffix_eq {l₁ l₂ : Str} (h : l₁ <:+ l₂) (hne : l₁ ≠ []) :
    l₁.getLast? = l₂.getLast? := by
  rcases h with ⟨pre, rfl⟩
  exact (List.getLast?_append_of_ne_nil pre hne).symm

theorem jsTrim_head (s : Str) :
    ∀ a, (jsTrim s).head? = some a → jsWs a = false := by
  intro a ha
  unfold jsTrim at ha
  set Z := List.dropWhile jsWs (List.reverse (trimLeft s)) with hZ
  rw [List.head?_reverse] at ha
  have hne : Z ≠ [] := by
    intro hnil
    rw [hnil] at ha
    simp at ha
  have hsfx : Z <:+ List.reverse (trimLeft s) := by
    rw [hZ]
    exact List.dropWhile_suffix jsWs
  rw [getLast_suffix_eq hsfx hne, List.getLast?_reverse] at ha
  exact head_dropWhile_false jsWs s a ha

theorem jsTrim_last (s : Str) :
    ∀ a, (jsTrim s).getLast? = some a → jsWs a = false := by
  intro a ha
  unfold jsTrim at ha
  rw [List.getLast?_reverse] at ha
  exact head_dropWhile_false jsWs (List.reverse (trimLeft s)) a ha

theorem jsTrim_eq_self {l : Str}
    (hh : ∀ a, l.head? = some a → jsWs a = false)
    (hl : ∀ a, l.getLast? = some a → jsWs a = false) : jsTrim l = l := by
  unfold jsTrim trimLeft
  rw [dropWhile_eq_self_of_head jsWs l hh]
  rw [dropWhile_eq_self_of_head jsWs (List.reverse l)
    (by intro a ha; rw [List.head?_reverse] at ha; exact hl a ha)]
  exact List.reverse_reverse l

theorem collapseWs_head (l : Str)
    (hh : ∀ a, l.head? = some a → jsWs a = false) :
    ∀ a, (collapseWs l).head? = some a → jsWs a = false := by
  intro a ha
  cases l with
  | nil => simp [collapseWs, collapseAux] at ha
  | cons c rest =>
    have hc : jsWs c = false := hh c rfl
    rw [collapseWs_cons_of_not_ws (by simp [hc])] at ha
    simp only [List.head?_cons, Option.some.injEq] at ha
    rw [← ha]
    exact hc

/-- The whitespace part of the pipeline (`trim` then `replace(/\s+/g, ' ')`)
is idempotent. -/
theorem wsNormal_idem (s : Str) :
    collapseWs (jsTrim (collapseWs (jsTrim s))) = collapseWs (jsTrim s) := by
  have hh := collapseWs_head (jsTrim s) (jsTrim_head s)
  have hl := collapseAux_last (jsTrim s) false (jsTrim_last s)
  rw [jsTrim_eq_self hh hl, collapseWs_idem]

theorem plainChar_spec {c : Char} (h : plainChar c = true) :
    c.toNat < 128 ∧ c.toNat ≠ 92 ∧ c.toNat ≠ 36 ∧ c.toNat ≠ 94 ∧
      ¬(65 ≤ c.toNat ∧ c.toNat ≤ 90) := by
  simp only [plainChar, Bool.and_eq_true, Bool.not_eq_true', decide_eq_true_eq,
    beq_eq_false_iff_ne, ne_eq, Bool.and_eq_false_iff, decide_eq_false_iff_not] at h
  omega

theorem jsTrim_subset (s : Str) : ∀ c ∈ jsTrim s, c ∈ s := by
  intro c hc
  unfold jsTrim trimLeft at hc
  rw [List.mem_reverse] at hc
  have h1 := List.dropWhile_subset jsWs hc
  rw [List.mem_reverse] at h1
  exact List.dropWhile_subset jsWs h1

theorem isPrefixOf_head {p₀ : Char} {pt : Str} {c : Char} {t : Str}
    (h : List.isPrefixOf (p₀ :: pt) (c :: t) = true) : c = p₀ := by
  rw [List.isPrefixOf_cons₂, Bool.and_eq_true, beq_iff_eq] at h
  exact h.1.symm

theorem replaceStr_id_of_head (pat repl : Str) (p₀ : Char)
    (hpat : pat.head? = some p₀) (s : Str) (hs : ∀ c ∈ s, c ≠ p₀) :
    replaceStr pat repl s = s := by
  unfold replaceStr
  refine replaceScan_id _ _ _ (fun c => c = p₀) ?_ _ s hs
  intro c t h
  cases pat with
  | nil => simp at hpat
  | cons q qt =>
    simp only [List.head?_cons, Option.some.injEq] at hpat
    rw [← hpat]
    exact isPrefixOf_head h

theorem replaceStrCI_id_backslash (repl s : Str)
    (hs : ∀ c ∈ s, c ≠ '\\') : replaceStrCI patMathbb repl s = s := by
  unfold replaceStrCI
  refine replaceScan_id _ _ _ (fun c => c = '\\') ?_ _ s hs
  intro c t h
  have hp : patMathbb = '\\' :: ['m', 'a', 't', 'h', 'b', 'b', '\x7b', 'n', '\x7d', '_', '0'] := rfl
  rw [hp, ciLeads, Bool.and_eq_true, beq_iff_eq] at h
  have hfold : foldChar c = '\\' := by
    rw [← h.1]
    decide
  exact foldChar_backslash hfold

/-- On strings of plain characters `normalizeText` is exactly trimming
followed by whitespace collapsing: every other stage is inert. -/
theorem normalizeText_plain (s : Str) (hp : ∀ c ∈ s, plainChar c = true) :
    normalizeText s = collapseWs (jsTrim s) := by
  have hr : ∀ c ∈ collapseWs (jsTrim s), plainChar c = true := by
    intro c hc
    rcases collapseAux_mem (jsTrim s) false c hc with rfl | h'
    · decide
    · exact hp c (jsTrim_subset s c h')
  have hback : ∀ c ∈ collapseWs (jsTrim s), c ≠ '\\' := by
    intro c hc he
    have := (plainChar_spec (hr c hc)).2.1
    rw [he] at this
    exact this rfl
  have hdol : ∀ c ∈ collapseWs (jsTrim s), c ≠ '$' := by
    intro c hc he
    have := (plainChar_spec (hr c hc)).2.2.1
    rw [he] at this
    exact this rfl
  have hcar : ∀ c ∈ collapseWs (jsTrim s), c ≠ '^' := by
    intro c hc he
    have := (plainChar_spec (hr c hc)).2.2.2.1
    rw [he] at this
    exact this rfl
  have huni : ∀ c ∈ collapseWs (jsTrim s), isUniSpace c = false := by
    intro c hc
    have hs' := (plainChar_spec (hr c hc)).1
    by_contra hne
    have ht : isUniSpace c = true := by
      revert hne
      cases isUniSpace c <;> simp
    simp only [isUniSpace, Bool.or_eq_true, Bool.and_eq_true, decide_eq_true_eq] at ht
    omega
  have hnb : ∀ c ∈ collapseWs (jsTrim s), isNbsp c = false := by
    intro c hc
    have hs' := (plainChar_spec (hr c hc)).1
    by_contra hne
    have ht : isNbsp c = true := by
      revert hne
      cases isNbsp c <;> simp
    simp only [isNbsp, beq_iff_eq] at ht
    omega
  have hmul : ∀ c ∈ collapseWs (jsTrim s), isMulSign c = false := by
    intro c hc
    have hs' := (plainChar_spec (hr c hc)).1
    by_contra hne
    have ht : isMulSign c = true := by
      revert hne
      cases isMulSign c <;> simp
    simp only [isMulSign, beq_iff_eq] at ht
    omega
  have harr : ∀ c ∈ collapseWs (jsTrim s), isArrowChar c = false := by
    intro c hc
    have hs' := (plainChar_spec (hr c hc)).1
    by_contra hne
    have ht : isArrowChar c = true := by
      revert hne
      cases isArrowChar c <;> simp
    simp only [isArrowChar, Bool.or_eq_true, beq_iff_eq] at ht
    omega
  have hmin : ∀ c ∈ collapseWs (jsTrim s), isMinusSign c = false := by
    intro c hc
    have hs' := (plainChar_spec (hr c hc)).1
    by_contra hne
    have ht : isMinusSign c = true := by
      revert hne
      cases isMinusSign c <;> simp
    simp only [isMinusSign, beq_iff_eq] at ht
    omega
  have hsq : ∀ c, isSQuoteClass c = true → c = '\'' := by
    intro c hc
    simp only [isSQuoteClass, beq_iff_eq] at hc
    exact charToNat_inj (by rw [hc]; rfl)
  have hdq : ∀ c, isDQuoteClass c = true → c = '"' := by
    intro c hc
    simp only [isDQuoteClass, beq_iff_eq] at hc
    exact charToNat_inj (by rw [hc]; rfl)
  have hfold : ∀ c ∈ collapseWs (jsTrim s), foldChar c = c := by
    intro c hc
    have hs' := plainChar_spec (hr c hc)
    exact foldChar_fixed hs'.2.2.2.2 (by omega)
  have e01 : replaceClass isUniSpace [' '] (collapseWs (jsTrim s)) = collapseWs (jsTrim s) :=
    replaceClass_id _ _ _ huni
  have e02 : replaceClass isNbsp [' '] (collapseWs (jsTrim s)) = collapseWs (jsTrim s) :=
    replaceClass_id _ _ _ hnb
  have e03 : replaceClass isSQuoteClass ['\''] (collapseWs (jsTrim s)) = collapseWs (jsTrim s) :=
    replaceClass_self _ _ hsq _
  have e04 : replaceClass isDQuoteClass ['"'] (collapseWs (jsTrim s)) = collapseWs (jsTrim s) :=
    replaceClass_self _ _ hdq _
  have e05 : replaceClass isMulSign ['x'] (collapseWs (jsTrim s)) = collapseWs (jsTrim s) :=
    replaceClass_id _ _ _ hmul
  have e06 : replaceStr patTimes ['x'] (collapseWs (jsTrim s)) = collapseWs (jsTrim s) :=
    replaceStr_id_of_head patTimes _ '\\' (by decide) _ hback
  have e07 : replaceClass isArrowChar ['-', '>'] (collapseWs (jsTrim s)) = collapseWs (jsTrim s) :=
    replaceClass_id _ _ _ harr
  have e08 : replaceStr patTo ['-', '>'] (collapseWs (jsTrim s)) = collapseWs (jsTrim s) :=
    replaceStr_id_of_head patTo _ '\\' (by decide) _ hback
  have e09 : replaceClass isMinusSign ['-'] (collapseWs (jsTrim s)) = collapseWs (jsTrim s) :=
    replaceClass_id _ _ _ hmin
  have e10 : replaceStr patDollar2 [] (collapseWs (jsTrim s)) = collapseWs (jsTrim s) :=
    replaceStr_id_of_head patDollar2 _ '$' (by decide) _ hdol
  have e11 : replaceStr patDollar [] (collapseWs (jsTrim s)) = collapseWs (jsTrim s) :=
    replaceStr_id_of_head patDollar _ '$' (by decide) _ hdol
  have e12 : replaceStr patSubseteq ['⊆'] (collapseWs (jsTrim s)) = collapseWs (jsTrim s) :=
    replaceStr_id_of_head patSubseteq _ '\\' (by decide) _ hback
  have e13 : replaceStrCI patMathbb ['ℕ', '₀'] (collapseWs (jsTrim s)) = collapseWs (jsTrim s) :=
    replaceStrCI_id_backslash _ _ hback
  have e14 : replaceStr patIn ['∈'] (collapseWs (jsTrim s)) = collapseWs (jsTrim s) :=
    replaceStr_id_of_head patIn _ '\\' (by decide) _ hback
  have e15 : replaceStr patEmptyset ['∅'] (collapseWs (jsTrim s)) = collapseWs (jsTrim s) :=
    replaceStr_id_of_head patEmptyset _ '\\' (by decide) _ hback
  have e16 : replaceStr patCaret2 ['²'] (collapseWs (jsTrim s)) = collapseWs (jsTrim s) :=
    replaceStr_id_of_head patCaret2 _ '^' (by decide) _ hcar
  have e17 : replaceStr patCaretN ['ⁿ'] (collapseWs (jsTrim s)) = collapseWs (jsTrim s) :=
    replaceStr_id_of_head patCaretN _ '^' (by decide) _ hcar
  have h304 : ∀ c ∈ collapseWs (jsTrim s), c.toNat ≠ 304 := by
    intro c hc
    have := (plainChar_spec (hr c hc)).1
    omega
  have e18 : jsToLowerStr (collapseWs (jsTrim s)) = collapseWs (jsTrim s) :=
    jsToLowerStr_id _ hfold h304
  unfold normalizeText
  rw [e01, e02, e03, e04, e05, e06, e07, e08, e09, e10, e11, e12, e13, e14,
    e15, e16, e17, e18]

theorem plain_collapse_trim (s : Str) (hp : ∀ c ∈ s, plainChar c = true) :
    ∀ c ∈ collapseWs (jsTrim s), plainChar c = true := by
  intro c hc
  rcases collapseAux_mem (jsTrim s) false c hc with rfl | h'
  · decide
  · exact hp c (jsTrim_subset s c h')

theorem jsTrim_length_le (s : Str) : List.length (jsTrim s) ≤ List.length s := by
  unfold jsTrim trimLeft
  rw [List.length_reverse]
  calc List.length (List.dropWhile jsWs (List.reverse (List.dropWhile jsWs s)))
      ≤ List.length (List.reverse (List.dropWhile jsWs s)) :=
        (List.dropWhile_sublist jsWs).length_le
    _ = List.length (List.dropWhile jsWs s) := List.length_reverse _
    _ ≤ List.length s := (List.dropWhile_sublist jsWs).length_le

theorem replaceStr_length_le (pat repl s : Str)
    (h : List.length repl ≤ List.length pat) :
    List.length (replaceStr pat repl s) ≤ List.length s :=
  replaceScan_length_le _ _ _ h (fun _ ht => isPrefixOf_length ht) _ s

theorem replaceStrCI_length_le (pat repl s : Str)
    (h : List.length repl ≤ List.length pat) :
    List.length (replaceStrCI pat repl s) ≤ List.length s :=
  replaceScan_length_le _ _ _ h (fun _ ht => ciLeads_length ht) _ s

theorem charWeight_pos (c : Char) : 1 ≤ charWeight c := by
  unfold charWeight
  split <;> omega

theorem charWeight_le_two (c : Char) : charWeight c ≤ 2 := by
  unfold charWeight
  split <;> omega

theorem strWeight_nil : strWeight ([] : Str) = 0 := rfl

theorem strWeight_cons (c : Char) (t : Str) :
    strWeight (c :: t) = charWeight c + strWeight t := by
  simp [strWeight]

theorem strWeight_append (l₁ l₂ : Str) :
    strWeight (l₁ ++ l₂) = strWeight l₁ + strWeight l₂ := by
  simp [strWeight]

theorem length_le_strWeight (s : Str) : List.length s ≤ strWeight s := by
  induction s with
  | nil => simp [strWeight_nil]
  | cons c rest ih =>
    rw [strWeight_cons, List.length_cons]
    have := charWeight_pos c
    omega

theorem strWeight_le_two_mul (s : Str) : strWeight s ≤ 2 * List.length s := by
  induction s with
  | nil => simp [strWeight_nil]
  | cons c rest ih =>
    rw [strWeight_cons, List.length_cons]
    have := charWeight_le_two c
    omega

theorem strWeight_eq_length (s : Str) (h : ∀ c ∈ s, charWeight c = 1) :
    strWeight s = List.length s := by
  induction s with
  | nil => simp [strWeight_nil]
  | cons c rest ih =>
    rw [strWeight_cons, List.length_cons, h c (List.mem_cons_self c rest),
      ih (fun d hd => h d (List.mem_cons_of_mem c hd))]
    omega

theorem natSum_sublist {l₁ l₂ : List Nat} (h : List.Sublist l₁ l₂) :
    List.sum l₁ ≤ List.sum l₂ := by
  induction h with
  | slnil => exact Nat.le_refl _
  | cons a h ih =>
    rw [List.sum_cons]
    omega
  | cons₂ a h ih =>
    rw [List.sum_cons, List.sum_cons]
    omega

theorem strWeight_sublist {l₁ l₂ : Str} (h : List.Sublist l₁ l₂) :
    strWeight l₁ ≤ strWeight l₂ :=
  natSum_sublist (h.map charWeight)

theorem jsTrim_sublist (s : Str) : List.Sublist (jsTrim s) s := by
  unfold jsTrim trimLeft
  have h1 := (List.dropWhile_sublist (l := List.reverse (List.dropWhile jsWs s)) jsWs).reverse
  rw [List.reverse_reverse] at h1
  exact h1.trans (List.dropWhile_sublist jsWs)

theorem jsTrim_weight_le (s : Str) : strWeight (jsTrim s) ≤ strWeight s :=
  strWeight_sublist (jsTrim_sublist s)

theorem collapseAux_weight_le :
    ∀ (l : List Char) (b : Bool), strWeight (collapseAux b l) ≤ strWeight l := by
  intro l
  induction l with
  | nil => intro b; simp [collapseAux, strWeight_nil]
  | cons c rest ih =>
    intro b
    rw [collapseAux]
    by_cases h : jsWs c = true
    · rw [if_pos h]
      cases b with
      | true =>
        rw [if_pos rfl, strWeight_cons]
        have := ih true
        omega
      | false =>
        simp only [Bool.false_eq_true, if_false]
        rw [strWeight_cons, strWeight_cons]
        have := ih true
        have h1 : charWeight ' ' = 1 := by decide
        have h2 := charWeight_pos c
        omega
    · rw [if_neg h, strWeight_cons, strWeight_cons]
      have := ih false
      omega

theorem replaceClass_weight_le (p : Char → Bool) (repl : Str)
    (h : ∀ c, p c = true → strWeight repl ≤ charWeight c) :
    ∀ s : Str, strWeight (replaceClass p repl s) ≤ strWeight s := by
  intro s
  induction s with
  | nil => simp [replaceClass, strWeight_nil]
  | cons c rest ih =>
    rw [replaceClass, strWeight_append, strWeight_cons]
    by_cases hc : p c = true
    · rw [if_pos hc]
      have := h c hc
      omega
    · rw [if_neg hc, strWeight_cons, strWeight_nil]
      omega

theorem replaceScan_weight_le (matchAt : Str → Bool) (patLen : Nat) (repl : Str)
    (hrepl : strWeight repl ≤ patLen)
    (hmatch : ∀ t, matchAt t = true → patLen ≤ List.length t) :
    ∀ (n : Nat) (s : Str),
      strWeight (replaceScan matchAt patLen repl n s) ≤ strWeight s := by
  intro n
  induction n with
  | zero =>
    intro s
    cases s <;> simp [replaceScan]
  | succ n ih =>
    intro s
    cases s with
    | nil => simp [replaceScan]
    | cons c rest =>
      rw [replaceScan]
      by_cases h : matchAt (c :: rest) = true
      · rw [if_pos h, strWeight_append]
        have hlen := hmatch _ h
        have hrec := ih (List.drop patLen (c :: rest))
        have hsplit : strWeight (c :: rest) =
            strWeight (List.take patLen (c :: rest)) +
              strWeight (List.drop patLen (c :: rest)) := by
          rw [← strWeight_append, List.take_append_drop]
        have htake : patLen ≤ strWeight (List.take patLen (c :: rest)) := by
          have h1 := length_le_strWeight (List.take patLen (c :: rest))
          rw [List.length_take] at h1
          omega
        omega
      · rw [if_neg h, strWeight_cons, strWeight_cons]
        have := ih rest
        omega

theorem replaceStr_weight_le (pat repl s : Str)
    (h : strWeight repl ≤ List.length pat) :
    strWeight (replaceStr pat repl s) ≤ strWeight s :=
  replaceScan_weight_le _ _ _ h (fun _ ht => isPrefixOf_length ht) _ s

theorem replaceStrCI_weight_le (pat repl s : Str)
    (h : strWeight repl ≤ List.length pat) :
    strWeight (replaceStrCI pat repl s) ≤ strWeight s :=
  replaceScan_weight_le _ _ _ h (fun _ ht => ciLeads_length ht) _ s

theorem charWeight_congr {a b : Char} (h : a.toNat = b.toNat) :
    charWeight a = charWeight b := by
  unfold charWeight isArrowChar
  rw [h]

theorem charWeight_foldChar (c : Char) : charWeight (foldChar c) ≤ charWeight c := by
  unfold foldChar
  by_cases h1 : (65 ≤ c.toNat && c.toNat ≤ 90) = true
  · rw [if_pos h1]
    simp only [Bool.and_eq_true, decide_eq_true_eq] at h1
    have hr : (Char.ofNat (c.toNat + 32)).toNat = c.toNat + 32 :=
      toNat_ofNat_valid (by constructor; omega)
    have hone : charWeight (Char.ofNat (c.toNat + 32)) = 1 := by
      unfold charWeight isArrowChar
      rw [if_neg (by simp [hr]; omega)]
    rw [hone]
    exact charWeight_pos c
  · by_cases h2 : (1040 ≤ c.toNat && c.toNat ≤ 1071) = true
    · rw [if_neg h1, if_pos h2]
      simp only [Bool.and_eq_true, decide_eq_true_eq] at h2
      have hr : (Char.ofNat (c.toNat + 32)).toNat = c.toNat + 32 :=
        toNat_ofNat_valid (by constructor; omega)
      have hone : charWeight (Char.ofNat (c.toNat + 32)) = 1 := by
        unfold charWeight isArrowChar
        rw [if_neg (by simp [hr]; omega)]
      rw [hone]
      exact charWeight_pos c
    · rw [if_neg h1, if_neg h2]

theorem jsLowerChar_weight (c : Char) : strWeight (jsLowerChar c) ≤ charWeight c := by
  unfold jsLowerChar
  by_cases h : (c.toNat == 304) = true
  · rw [if_pos h]
    have h304 : c.toNat = 304 := by simpa using h
    have hcw : charWeight c = 2 := by
      unfold charWeight
      rw [if_pos (by simp [h304])]
    have hw : strWeight ['i', '\u0307'] = 2 := by decide
    omega
  · rw [if_neg h]
    have hs : strWeight [foldChar c] = charWeight (foldChar c) := by
      rw [strWeight_cons, strWeight_nil]
      omega
    rw [hs]
    exact charWeight_foldChar c

theorem jsToLowerStr_weight_le (s : Str) :
    strWeight (jsToLowerStr s) ≤ strWeight s := by
  induction s with
  | nil => exact Nat.le_refl _
  | cons c rest ih =>
    rw [jsToLowerStr, strWeight_append, strWeight_cons]
    have := jsLowerChar_weight c
    omega

/-- Every stage of `normalizeText` is non-increasing for the character
weight that charges 2 to the two expandable character kinds. -/
theorem normalizeText_weight_le (s : Str) :
    strWeight (normalizeText s) ≤ strWeight s := by
  unfold normalizeText
  have b0 : strWeight (jsTrim s) ≤ strWeight s := jsTrim_weight_le s
  set x1 := collapseWs (jsTrim s) with hx1
  have b1 : strWeight x1 ≤ strWeight (jsTrim s) := collapseAux_weight_le _ false
  have hone : ∀ (q : Char), charWeight q = 1 →
      ∀ c : Char, strWeight [q] ≤ charWeight c := by
    intro q hq c
    rw [strWeight_cons, strWeight_nil, hq]
    have := charWeight_pos c
    omega
  set x2 := replaceClass isUniSpace [' '] x1 with hx2
  have b2 : strWeight x2 ≤ strWeight x1 :=
    replaceClass_weight_le _ _ (fun c _ => hone ' ' (by decide) c) x1
  set x3 := replaceClass isNbsp [' '] x2 with hx3
  have b3 : strWeight x3 ≤ strWeight x2 :=
    replaceClass_weight_le _ _ (fun c _ => hone ' ' (by decide) c) x2
  set x4 := replaceClass isSQuoteClass ['\''] x3 with hx4
  have b4 : strWeight x4 ≤ strWeight x3 :=
    replaceClass_weight_le _ _ (fun c _ => hone '\'' (by decide) c) x3
  set x5 := replaceClass isDQuoteClass ['"'] x4 with hx5
  have b5 : strWeight x5 ≤ strWeight x4 :=
    replaceClass_weight_le _ _ (fun c _ => hone '"' (by decide) c) x4
  set x6 := replaceClass isMulSign ['x'] x5 with hx6
  have b6 : strWeight x6 ≤ strWeight x5 :=
    replaceClass_weight_le _ _ (fun c _ => hone 'x' (by decide) c) x5
  set x7 := replaceStr patTimes ['x'] x6 with hx7
  have b7 : strWeight x7 ≤ strWeight x6 := replaceStr_weight_le _ _ _ (by decide)
  set x8 := replaceClass isArrowChar ['-', '>'] x7 with hx8
  have b8 : strWeight x8 ≤ strWeight x7 := by
    refine replaceClass_weight_le _ _ ?_ x7
    intro c hc
    have hw : strWeight ['-', '>'] = 2 := by decide
    have hcw : charWeight c = 2 := by
      unfold charWeight
      rw [if_pos (by simp [hc])]
    omega
  set x9 := replaceStr patTo ['-', '>'] x8 with hx9
  have b9 : strWeight x9 ≤ strWeight x8 := replaceStr_weight_le _ _ _ (by decide)
  set x10 := replaceClass isMinusSign ['-'] x9 with hx10
  have b10 : strWeight x10 ≤ strWeight x9 :=
    replaceClass_weight_le _ _ (fun c _ => hone '-' (by decide) c) x9
  set x11 := replaceStr patDollar2 [] x10 with hx11
  have b11 : strWeight x11 ≤ strWeight x10 := replaceStr_weight_le _ _ _ (by decide)
  set x12 := replaceStr patDollar [] x11 with hx12
  have b12 : strWeight x12 ≤ strWeight x11 := replaceStr_weight_le _ _ _ (by decide)
  set x13 := replaceStr patSubseteq ['⊆'] x12 with hx13
  have b13 : strWeight x13 ≤ strWeight x12 := replaceStr_weight_le _ _ _ (by decide)
  set x14 := replaceStrCI patMathbb ['ℕ', '₀'] x13 with hx14
  have b14 : strWeight x14 ≤ strWeight x13 := replaceStrCI_weight_le _ _ _ (by decide)
  set x15 := replaceStr patIn ['∈'] x14 with hx15
  have b15 : strWeight x15 ≤ strWeight x14 := replaceStr_weight_le _ _ _ (by decide)
  set x16 := replaceStr patEmptyset ['∅'] x15 with hx16
  have b16 : strWeight x16 ≤ strWeight x15 := replaceStr_weight_le _ _ _ (by decide)
  set x17 := replaceStr patCaret2 ['²'] x16 with hx17
  have b17 : strWeight x17 ≤ strWeight x16 := replaceStr_weight_le _ _ _ (by decide)
  set x18 := replaceStr patCaretN ['ⁿ'] x17 with hx18
  have b18 : strWeight x18 ≤ strWeight x17 := replaceStr_weight_le _ _ _ (by decide)
  have b19 : strWeight (jsToLowerStr x18) ≤ strWeight x18 := jsToLowerStr_weight_le x18
  omega

/-- The output of `normalizeText` is at most twice the length of the
input: every character contributes at most weight 2. -/
theorem normalizeText_length_le_double (s : Str) :
    List.length (normalizeText s) ≤ 2 * List.length s := by
  have h1 := length_le_strWeight (normalizeText s)
  have h2 := normalizeText_weight_le s
  have h3 := strWeight_le_two_mul s
  omega

/-- For inputs containing no arrow glyph and no dotted capital I the
pipeline has no growing stage and never lengthens the string. -/
theorem normalizeText_length_le_of_no_growth (s : Str)
    (h : ∀ c ∈ s, isArrowChar c = false ∧ c.toNat ≠ 304) :
    List.length (normalizeText s) ≤ List.length s := by
  have hw : strWeight s = List.length s := by
    refine strWeight_eq_length s ?_
    intro c hc
    rcases h c hc with ⟨h1, h2⟩
    unfold charWeight
    rw [if_neg (by simp [h1, h2])]
  have h1 := length_le_strWeight (normalizeText s)
  have h2 := normalizeText_weight_le s
  omega

theorem ratThreshold_iff {m n : Nat} (hn : 0 < n) :
    ((0.6 : ℚ) ≤ (m : ℚ) / (n : ℚ)) ↔ 3 * n ≤ 5 * m := by
  have hn' : (0 : ℚ) < (n : ℚ) := by exact_mod_cast hn
  rw [show (0.6 : ℚ) = 3 / 5 by norm_num, div_le_div_iff₀ (by norm_num) hn']
  constructor
  · intro h
    have h' : (3 * n : ℚ) ≤ (5 * m : ℚ) := by push_cast at h ⊢; linarith
    exact_mod_cast h'
  · intro h
    have h' : (3 * n : ℚ) ≤ (5 * m : ℚ) := by exact_mod_cast h
    push_cast at h'
    linarith

theorem wordMatchRate_threshold (nm : Str) (words : List Str) :
    ((0.6 : ℚ) ≤ wordMatchRate nm words) ↔
      (words ≠ [] ∧ 3 * List.length words ≤
        5 * List.length (matchingWords nm words)) := by
  unfold wordMatchRate
  by_cases h : 0 < List.length words
  · rw [if_pos h, ratThreshold_iff h]
    simp only [iff_and_self]
    intro _
    intro he
    rw [he] at h
    simp at h
  · rw [if_neg h]
    have hnil : words = [] := by
      cases words with
      | nil => rfl
      | cons a t => simp at h
    constructor
    · intro habs
      norm_num at habs
    · intro ⟨hne, _⟩
      exact absurd hnil hne

/-- Count-level characterization of the paragraph presence decision. -/
theorem paragraphPresent_iff_counts (nm p : Str) :
    paragraphPresent nm p = true ↔
      ((qualifyingWords (normalizeText p) ≠ [] ∧
        3 * List.length (qualifyingWords (normalizeText p)) ≤
          5 * List.length (matchingWords nm (qualifyingWords (normalizeText p)))) ∨
        paragraphFallback nm (normalizeText p) = true) := by
  unfold paragraphPresent
  rw [Bool.or_eq_true, decide_eq_true_iff, wordMatchRate_threshold]

/-- Count-level characterization of the list-item presence decision. -/
theorem listItemPresent_iff_counts (nm item : Str) :
    listItemPresent nm item = true ↔
      ((qualifyingWords (normalizeText item) ≠ [] ∧
        3 * List.length (qualifyingWords (normalizeText item)) ≤
          5 * List.length (matchingWords nm (qualifyingWords (normalizeText item)))) ∨
        listItemFallback nm (normalizeText item) = true) := by
  unfold listItemPresent
  rw [Bool.or_eq_true, decide_eq_true_iff, wordMatchRate_threshold]

theorem codeLineRate_threshold (mdCode code : Str) :
    ((0.6 : ℚ) ≤ codeLineMatchRate mdCode code) ↔
      3 * List.length (significantLines code) ≤
        5 * List.length (matchingLines mdCode code) := by
  unfold codeLineMatchRate
  by_cases h : 0 < List.length (significantLines code)
  · rw [if_pos h, ratThreshold_iff h]
  · rw [if_neg h]
    have h0 : List.length (significantLines code) = 0 := by omega
    have hm : List.length (matchingLines mdCode code) ≤
        List.length (significantLines code) :=
      List.length_filter_le _ _
    constructor
    · intro _
      omega
    · intro _
      norm_num

theorem figureCheck_passed_le (a : Article) (m : Str) :
    (figureCheck a m).2.1 ≤ (figureCheck a m).1 := by
  unfold figureCheck
  by_cases h1 : (a.hasLocalImages && decide (a.expectedFigures ≠ 0)) = true
  · rw [if_pos h1]
    by_cases h2 : a.expectedFigures ≤ countFigureRefs m
    · rw [if_pos h2]
    · rw [if_neg h2]
      simp
  · rw [if_neg h1]
    by_cases h3 : (!a.hasLocalImages) = true
    · rw [if_pos h3]
      by_cases h4 : hasExternalImageRef m = true
      · rw [if_pos h4]
      · rw [if_neg h4]
        simp
    · rw [if_neg h3]

theorem verify_passed_le_total (a : Article) (w : WebContent) (m : Str) :
    verifyPassedChecks a w m ≤ verifyTotalChecks a w m := by
  unfold verifyPassedChecks verifyTotalChecks countTrue
  have h1 := List.count_le_length true (titleChecks (normalizeText m) w.title)
  have h2 := List.count_le_length true (headingChecks (normalizeText m) w.headings)
  have h3 := List.count_le_length true (paragraphChecks (normalizeText m) w.paragraphs)
  have h4 := List.count_le_length true (codeChecks (normalizeCode m) w.codeBlocks)
  have h5 := List.count_le_length true (listChecks (normalizeText m) w.listItems)
  have h6 := figureCheck_passed_le a m
  omega

theorem hasMissing_iff (a : Article) (w : WebContent) (m : Str) :
    verifyHasMissingContent a w m = true ↔ missingRecorded (verifyMissing a w m) := by
  unfold verifyHasMissingContent missingRecorded
  simp only [Bool.or_eq_true, decide_eq_true_iff, Bool.not_eq_true',
    List.isEmpty_eq_false, ne_eq, or_assoc]

/-- C1: for every verification run the returned report satisfies
`passRate = passedChecks / totalChecks` (with the code's `0` convention
when `totalChecks = 0`, which coincides with rational division by zero),
and `success` holds iff no item of any category was recorded missing or
`passRate` is at least the 0.85 threshold. -/
theorem c1_report_verdict (article : Article) (w : WebContent) (m : Str) :
    (verifyMarkdownContent article w m).passRate =
      ((verifyMarkdownContent article w m).passedChecks : ℚ) /
        ((verifyMarkdownContent article w m).totalChecks : ℚ) ∧
    ((verifyMarkdownContent article w m).success = true ↔
      (¬ missingRecorded (verifyMarkdownContent article w m).missing ∨
        (0.85 : ℚ) ≤ (verifyMarkdownContent article w m).passRate)) := by
  have e1 : (verifyMarkdownContent article w m).passRate = verifyPassRate article w m := rfl
  have e2 : (verifyMarkdownContent article w m).passedChecks = verifyPassedChecks article w m := rfl
  have e3 : (verifyMarkdownContent article w m).totalChecks = verifyTotalChecks article w m := rfl
  have e4 : (verifyMarkdownContent article w m).missing = verifyMissing article w m := rfl
  have e5 : (verifyMarkdownContent article w m).success =
      (!verifyHasMissingContent article w m ||
        decide ((0.85 : ℚ) ≤ verifyPassRate article w m)) := rfl
  rw [e1, e2, e3, e4, e5]
  constructor
  · unfold verifyPassRate
    by_cases h : 0 < verifyTotalChecks article w m
    · rw [if_pos h]
    · rw [if_neg h]
      have h0 : verifyTotalChecks article w m = 0 := by omega
      have hp : verifyPassedChecks article w m = 0 := by
        have := verify_passed_le_total article w m
        omega
      rw [h0, hp]
      norm_num
  · rw [Bool.or_eq_true, Bool.not_eq_true', decide_eq_true_iff]
    have hm := hasMissing_iff article w m
    constructor
    · rintro (hf | hr)
      · left
        intro hmr
        rw [hm.mpr hmr] at hf
        cases hf
      · right
        exact hr
    · rintro (hn | hr)
      · left
        by_contra hne
        have hb : verifyHasMissingContent article w m = true := by
          revert hne
          cases verifyHasMissingContent article w m <;> simp
        exact hn (hm.mp hb)
      · right
        exact hr

theorem paragraphsToCheck_length (ps : List Str) :
    List.length (paragraphsToCheck ps) =
      min 5 (List.length ps) + min 5 (List.length ps) := by
  unfold paragraphsToCheck
  rw [List.length_append, List.length_take, List.length_drop]
  omega

/-- C10: the number of paragraph checks performed and counted in
`totalChecks` equals `min 5 n + min 5 n` for a reference with `n`
paragraphs (first-5 and last-5 samples can overlap but are both counted),
and `totalChecks` decomposes as title + headings + paragraphs + code
blocks + list items + image check. -/
theorem c10_paragraph_sampling (article : Article) (w : WebContent) (m : Str) :
    List.length (paragraphChecks (normalizeText m) w.paragraphs) =
      min 5 (List.length w.paragraphs) + min 5 (List.length w.paragraphs) ∧
    (verifyMarkdownContent article w m).totalChecks =
      (if w.title = [] then 0 else 1) + List.length w.headings +
        (min 5 (List.length w.paragraphs) + min 5 (List.length w.paragraphs)) +
        List.length w.codeBlocks + min 10 (List.length w.listItems) +
        (figureCheck article m).1 := by
  have hp : List.length (paragraphChecks (normalizeText m) w.paragraphs) =
      min 5 (List.length w.paragraphs) + min 5 (List.length w.paragraphs) := by
    unfold paragraphChecks
    rw [List.length_map, paragraphsToCheck_length]
  refine ⟨hp, ?_⟩
  have e3 : (verifyMarkdownContent article w m).totalChecks = verifyTotalChecks article w m := rfl
  rw [e3]
  unfold verifyTotalChecks
  rw [hp]
  unfold titleChecks headingChecks codeChecks listChecks
  rw [List.length_map, List.length_map, List.length_map, List.length_take]
  by_cases ht : w.title = []
  · rw [if_pos ht, ht]
    simp
  · rw [if_neg ht]
    have hemp : List.isEmpty w.title = false := by
      simpa [List.isEmpty_eq_false] using ht
    rw [hemp]
    simp

/-- C2: a paragraph or list item is reported present exactly when the
fraction of its qualifying words (length > 2 after splitting the
normalized item on spaces) contained in the normalized candidate reaches
0.6, or the leading-character substring fallback holds; concretely, a
paragraph with 10 qualifying words of which exactly 6 occur (and no
fallback overlap) is present, and with only 5 of 10 it is missing. -/
theorem c2_fuzzy_word_overlap :
    (∀ nm p : Str, paragraphPresent nm p = true ↔
      ((0.6 : ℚ) ≤ wordMatchRate nm (qualifyingWords (normalizeText p)) ∨
        paragraphFallback nm (normalizeText p) = true)) ∧
    (∀ nm i : Str, listItemPresent nm i = true ↔
      ((0.6 : ℚ) ≤ wordMatchRate nm (qualifyingWords (normalizeText i)) ∨
        listItemFallback nm (normalizeText i) = true)) ∧
    List.length (qualifyingWords (normalizeText exParagraph)) = 10 ∧
    List.length (matchingWords (normalizeText exCand1)
      (qualifyingWords (normalizeText exParagraph))) = 6 ∧
    paragraphFallback (normalizeText exCand1) (normalizeText exParagraph) = false ∧
    paragraphPresent (normalizeText exCand1) exParagraph = true ∧
    List.length (matchingWords (normalizeText exCand2)
      (qualifyingWords (normalizeText exParagraph))) = 5 ∧
    paragraphPresent (normalizeText exCand2) exParagraph = false := by
  refine ⟨?_, ?_, by decide, by decide, by decide,
    (paragraphPresent_iff_counts _ _).mpr (by decide), by decide, ?_⟩
  · intro nm p
    unfold paragraphPresent
    rw [Bool.or_eq_true, decide_eq_true_iff]
  · intro nm i
    unfold listItemPresent
    rw [Bool.or_eq_true, decide_eq_true_iff]
  · by_contra h
    have ht : paragraphPresent (normalizeText exCand2) exParagraph = true := by
      revert h
      cases paragraphPresent (normalizeText exCand2) exParagraph <;> simp
    have h2 := (paragraphPresent_iff_counts _ _).mp ht
    revert h2
    decide

/-- C4: a heading is reported present if and only if its normalized text
occurs verbatim as a substring of the normalized candidate; the missing
list is exactly the headings failing that containment test (no fuzzy
word-overlap or fallback is applied). -/
theorem c4_heading_exact_containment (article : Article) (w : WebContent) (m : Str) :
    (∀ (nm : Str) (hd : Heading),
      headingPresent nm hd = true ↔ normalizeText hd.text <:+: nm) ∧
    (verifyMarkdownContent article w m).missing.headings =
      List.map Heading.text (List.filter
        (fun hd => !includesStr (normalizeText m) (normalizeText hd.text)) w.headings) := by
  constructor
  · intro nm hd
    unfold headingPresent
    exact includesStr_iff
  · rfl

/-- C5: a code block is reported present if and only if at least 60% of
its significant lines (length > 3 and not punctuation-only, after
trimming) individually occur, `normalizeCode`-normalized, in the
normalized candidate, or the whole normalized block occurs verbatim. -/
theorem c5_code_block_matching (mdC code : Str) :
    codeBlockPresent mdC code = true ↔
      (3 * List.length (significantLines code) ≤
        5 * List.length (matchingLines mdC code) ∨
        normalizeCode code <:+: mdC) := by
  unfold codeBlockPresent
  rw [Bool.or_eq_true, decide_eq_true_iff, includesStr_iff, codeLineRate_threshold]

/-- C9: a code block whose lines are all discarded as insignificant has
line-match rate 1 and is reported present regardless of the candidate. -/
theorem c9_empty_significant_lines (mdC code : Str)
    (h : significantLines code = []) :
    codeLineMatchRate mdC code = 1 ∧ codeBlockPresent mdC code = true := by
  have hr : codeLineMatchRate mdC code = 1 := by
    unfold codeLineMatchRate
    rw [h]
    simp
  refine ⟨hr, ?_⟩
  unfold codeBlockPresent
  rw [hr, decide_eq_true (by norm_num : (0.6 : ℚ) ≤ 1), Bool.true_or]

theorem c9_witness :
    significantLines exTrivCode = [] ∧
    codeLineMatchRate ("q".data) exTrivCode = 1 ∧
    codeBlockPresent ("q".data) exTrivCode = true :=
  ⟨by decide, (c9_empty_significant_lines ("q".data) exTrivCode (by decide)).1,
    (c9_empty_significant_lines ("q".data) exTrivCode (by decide)).2⟩

/-- C7 (amended): an item with zero qualifying words fails the ratio test
and is present only via the substring fallback; an item whose normalized
length is at or below the fallback threshold (20 for paragraphs, 15 for
list items) has the fallback disabled and is present exactly when the
word-overlap ratio reaches 0.6 (not via exact containment). -/
theorem c7_zero_words_and_short_items :
    (∀ nm p : Str, qualifyingWords (normalizeText p) = [] →
      (paragraphPresent nm p = true ↔ paragraphFallback nm (normalizeText p) = true)) ∧
    (∀ nm i : Str, qualifyingWords (normalizeText i) = [] →
      (listItemPresent nm i = true ↔ listItemFallback nm (normalizeText i) = true)) ∧
    (∀ nm p : Str, List.length (normalizeText p) ≤ 20 →
      (paragraphPresent nm p = true ↔
        (0.6 : ℚ) ≤ wordMatchRate nm (qualifyingWords (normalizeText p)))) ∧
    (∀ nm i : Str, List.length (normalizeText i) ≤ 15 →
      (listItemPresent nm i = true ↔
        (0.6 : ℚ) ≤ wordMatchRate nm (qualifyingWords (normalizeText i)))) := by
  refine ⟨?_, ?_, ?_, ?_⟩
  · intro nm p h
    constructor
    · intro hp
      rcases (paragraphPresent_iff_counts nm p).mp hp with ⟨hne, _⟩ | hf
      · exact absurd h hne
      · exact hf
    · intro hf
      exact (paragraphPresent_iff_counts nm p).mpr (Or.inr hf)
  · intro nm i h
    constructor
    · intro hp
      rcases (listItemPresent_iff_counts nm i).mp hp with ⟨hne, _⟩ | hf
      · exact absurd h hne
      · exact hf
    · intro hf
      exact (listItemPresent_iff_counts nm i).mpr (Or.inr hf)
  · intro nm p h
    unfold paragraphPresent
    have hd : decide (20 < List.length (normalizeText p)) = false := by
      simp only [decide_eq_false_iff_not]
      omega
    have hfb : paragraphFallback nm (normalizeText p) = false := by
      unfold paragraphFallback
      rw [hd, Bool.false_and]
    rw [hfb, Bool.or_false, decide_eq_true_iff]
  · intro nm i h
    unfold listItemPresent
    have hd : decide (15 < List.length (normalizeText i)) = false := by
      simp only [decide_eq_false_iff_not]
      omega
    have hfb : listItemFallback nm (normalizeText i) = false := by
      unfold listItemFallback
      rw [hd, Bool.false_and]
    rw [hfb, Bool.or_false, decide_eq_true_iff]

theorem c7_witness :
    (qualifyingWords (normalizeText ("a b".data)) = [] ∧
      (paragraphPresent ("zzz".data) ("a b".data) = true ↔
        paragraphFallback ("zzz".data) (normalizeText ("a b".data)) = true)) ∧
    (List.length (normalizeText exShortItem) ≤ 20 ∧
      (paragraphPresent (normalizeText exShortCand) exShortItem = true ↔
        (0.6 : ℚ) ≤ wordMatchRate (normalizeText exShortCand)
          (qualifyingWords (normalizeText exShortItem)))) :=
  ⟨⟨by decide, c7_zero_words_and_short_items.1 _ _ (by decide)⟩,
    ⟨by decide, c7_zero_words_and_short_items.2.2.1 _ _ (by decide)⟩⟩

/-- C7 counterexample: a short item (normalized length 11, below the
paragraph fallback threshold) is reported present through the word-ratio
test although its normalized text is not exactly contained in the
normalized candidate, contradicting "present only via exact
containment". -/
theorem c7_counterexample :
    List.length (normalizeText exShortItem) ≤ 20 ∧
    paragraphPresent (normalizeText exShortCand) exShortItem = true ∧
    includesStr (normalizeText exShortCand) (normalizeText exShortItem) = false :=
  ⟨by decide, (paragraphPresent_iff_counts _ _).mpr (by decide), by decide⟩

/-- C3 counterexample: normalization is not idempotent.  Zero-width
spaces (U+200B) are outside the `\s` class but inside the Unicode-space
class replaced after whitespace collapsing, so `"a​​b"`
normalizes to `"a  b"` (two spaces), which re-normalizes to `"a b"`. -/
theorem c3_counterexample :
    normalizeText (normalizeText exZwsp) ≠ normalizeText exZwsp := by decide

/-- C3 (amended): `normalizeText` is idempotent on strings of plain
characters (ASCII, no backslash, dollar or caret, no uppercase letter),
where it reduces to trimming followed by whitespace collapsing. -/
theorem c3_idempotent_on_plain (s : Str) (hp : ∀ c ∈ s, plainChar c = true) :
    normalizeText (normalizeText s) = normalizeText s := by
  rw [normalizeText_plain s hp, normalizeText_plain _ (plain_collapse_trim s hp)]
  exact wsNormal_idem s

theorem c3_witness :
    (∀ c ∈ exPlain, plainChar c = true) ∧
    normalizeText (normalizeText exPlain) = normalizeText exPlain :=
  ⟨by decide, c3_idempotent_on_plain exPlain (by decide)⟩

/-- C8 counterexample: normalization can lengthen a string — the arrow
glyph `→` (one character) is replaced by the two-character `->`. -/
theorem c8_counterexample :
    List.length exArrowStr < List.length (normalizeText exArrowStr) := by decide

/-- C8 (amended): normalization can lengthen a string — the arrow class
maps one character to the two-character `->`, and `toLowerCase` expands
the dotted capital I (U+0130) to `i` plus a combining dot — but the
output is at most twice the length of the input, and at most the length
of the input whenever the input contains neither an arrow glyph
(`→`, `↦`) nor U+0130: those are the only growing stages. -/
theorem c8_normalization_length :
    (∀ s : Str, List.length (normalizeText s) ≤ 2 * List.length s) ∧
    (∀ s : Str, (∀ c ∈ s, isArrowChar c = false ∧ c.toNat ≠ 304) →
      List.length (normalizeText s) ≤ List.length s) ∧
    List.length exDottedI = 1 ∧ List.length (normalizeText exDottedI) = 2 :=
  ⟨normalizeText_length_le_double, normalizeText_length_le_of_no_growth,
    by decide, by decide⟩

theorem c8_witness :
    (∀ c ∈ exNoArrow, isArrowChar c = false ∧ c.toNat ≠ 304) ∧
    List.length (normalizeText exNoArrow) ≤ List.length exNoArrow :=
  ⟨by decide, c8_normalization_length.2.1 exNoArrow (by decide)⟩

/-- C6 counterexample: the claim's trigger is wrong — the figure-count
check also requires `article.hasLocalImages`.  With local images absent
but `expectedFigures = 13` and 12 recognized references, no figure check
runs: the single image check is the external-image check, and the
reported missing-images count is 0, not 1. -/
theorem c6_counterexample :
    exArticleNoLocal.hasLocalImages = false ∧
    exArticleNoLocal.expectedFigures = 13 ∧
    countFigureRefs exMd12 = 12 ∧
    (verifyMarkdownContent exArticleNoLocal exWebEmpty exMd12).totalChecks = 1 ∧
    (verifyMarkdownContent exArticleNoLocal exWebEmpty exMd12).passedChecks = 0 ∧
    (verifyMarkdownContent exArticleNoLocal exWebEmpty exMd12).missing.images = 0 :=
  ⟨rfl, rfl, by decide, by decide, by decide, by decide⟩

/-- C6 (amended): when the article has local images and declares an
expected figure count > 0, exactly one figure check is added; it passes
iff the number of recognized figure-image references (pattern-match
occurrences) reaches the expected count, and otherwise the missing-images
count is the shortfall; with `expectedFigures = 13` and 12 recognized
references the reported missing count is exactly 1. -/
theorem c6_figure_count_gate (article : Article) (w : WebContent) (m : Str)
    (h1 : article.hasLocalImages = true) (h2 : article.expectedFigures ≠ 0) :
    ((verifyMarkdownContent article w m).totalChecks =
        (verifyMarkdownContent ⟨true, 0⟩ w m).totalChecks + 1 ∧
      (verifyMarkdownContent article w m).passedChecks =
        (verifyMarkdownContent ⟨true, 0⟩ w m).passedChecks +
          (if article.expectedFigures ≤ countFigureRefs m then 1 else 0) ∧
      (verifyMarkdownContent article w m).missing.images =
        (if article.expectedFigures ≤ countFigureRefs m then 0
          else article.expectedFigures - countFigureRefs m)) ∧
    countFigureRefs exMd12 = 12 ∧
    (verifyMarkdownContent exArticle13 exWebEmpty exMd12).missing.images = 1 := by
  have hfig : figureCheck article m =
      (if article.expectedFigures ≤ countFigureRefs m then ((1 : Nat), (1 : Nat), (0 : Nat))
        else (1, 0, article.expectedFigures - countFigureRefs m)) := by
    unfold figureCheck
    rw [h1]
    have hcond : (true && decide (article.expectedFigures ≠ 0)) = true := by
      simp [h2]
    rw [if_pos hcond]
  have hfig0 : figureCheck ⟨true, 0⟩ m = ((0 : Nat), (0 : Nat), (0 : Nat)) := by
    unfold figureCheck
    simp
  refine ⟨⟨?_, ?_, ?_⟩, by decide, by decide⟩
  · show verifyTotalChecks article w m = verifyTotalChecks ⟨true, 0⟩ w m + 1
    unfold verifyTotalChecks
    rw [hfig, hfig0]
    by_cases h : article.expectedFigures ≤ countFigureRefs m
    · rw [if_pos h]
      simp
    · rw [if_neg h]
      simp
  · show verifyPassedChecks article w m = verifyPassedChecks ⟨true, 0⟩ w m + _
    unfold verifyPassedChecks
    rw [hfig, hfig0]
    by_cases h : article.expectedFigures ≤ countFigureRefs m
    · rw [if_pos h, if_pos h]
      simp
    · rw [if_neg h, if_neg h]
      simp
  · show (figureCheck article m).2.2 = _
    rw [hfig]
    by_cases h : article.expectedFigures ≤ countFigureRefs m
    · rw [if_pos h, if_pos h]
    · rw [if_neg h, if_neg h]

theorem c6_witness :
    (exArticle13.hasLocalImages = true ∧ exArticle13.expectedFigures ≠ 0) ∧
    (verifyMarkdownContent exArticle13 exWebEmpty exMd12).totalChecks =
      (verifyMarkdownContent ⟨true, 0⟩ exWebEmpty exMd12).totalChecks + 1 :=
  ⟨⟨rfl, by decide⟩,
    (c6_figure_count_gate exArticle13 exWebEmpty exMd12 rfl (by decide)).1.1⟩
